import Mathlib

/-!
Shallow embedding of the core backtest engine of the trading-bot-dashboard
repository (src/src/backtest/engine.py, `backtest`) together with the ATR
position sizer (src/src/risk/position_sizing.py, `atr_position_size`).

Prices, balances, fees and quantities are modelled as exact rationals; the
float literals 1e-8 and 1e-9 of the source become the rationals 1/10^8 and
1/10^9.  A per-bar volatility (ATR) value that is NaN in the source is
modelled as `none : Option ℚ`.  The Python `IndexError` that a too-short
signal or ATR series raises mid-loop is modelled with `Except String`.
-/

namespace TradingBot

/-- Scalar configuration of `backtest` (its non-series parameters). -/
structure BTConfig where
  initial_capital : ℚ
  risk_per_trade : ℚ
  atr_stop_mult : ℚ
  tp_mult : ℚ
  fee_pct : ℚ
  slippage_pct : ℚ
  deriving DecidableEq, Repr

/-- `TradeResult` dataclass of engine.py. -/
structure TradeResult where
  entry_idx : Nat
  exit_idx : Nat
  side : Int
  entry_price : ℚ
  exit_price : ℚ
  qty : ℚ
  pnl : ℚ
  ret : ℚ
  deriving DecidableEq, Repr

/-- The `position` dict built in the entry branch of `backtest`. -/
structure Position where
  side : Int
  qty : ℚ
  entry_price : ℚ
  entry_price_net : ℚ
  stop : ℚ
  tp : ℚ
  entry_idx : Nat
  deriving DecidableEq, Repr

/-- The mutable local state of the `backtest` loop. -/
structure BTState where
  balance : ℚ
  equity_curve : List ℚ
  position : Option Position
  trades : List TradeResult
  deriving DecidableEq, Repr

/-- `atr_position_size` from src/src/risk/position_sizing.py.
The `price` argument is accepted but unused, exactly as in the source. -/
def atr_position_size (balance risk_per_trade atr price stop_mult : ℚ) : ℚ :=
  let risk_per_unit := max (1e-8 : ℚ) (atr * stop_mult)
  let risk_amount := balance * risk_per_trade
  let qty := risk_amount / risk_per_unit
  max 0 qty

/-- The `exit_reason` values of the exit branch of `backtest`. -/
inductive ExitReason where
  | stop
  | tp
  deriving DecidableEq, Repr

/-- The exit decision of `backtest` (engine.py lines 123-127): the stop
condition is tested first, the take-profit condition only in the elif. -/
def exitReason (side : Int) (p stopPrice tpPrice : ℚ) : Option ExitReason :=
  if (side = 1 ∧ p ≤ stopPrice) ∨ (side = -1 ∧ p ≥ stopPrice) then some .stop
  else if (side = 1 ∧ p ≥ tpPrice) ∨ (side = -1 ∧ p ≤ tpPrice) then some .tp
  else none

/-- Entry fill price (engine.py line 152):
`p * (1 + slippage_pct) if side == 1 else p * (1 - slippage_pct)`. -/
def entryFillPrice (p slippage_pct : ℚ) (side : Int) : ℚ :=
  if side = 1 then p * (1 + slippage_pct) else p * (1 - slippage_pct)

/-- Exit fill price (engine.py line 130):
`p * (1 - slippage_pct) if side == 1 else p * (1 + slippage_pct)`. -/
def exitFillPrice (p slippage_pct : ℚ) (side : Int) : ℚ :=
  if side = 1 then p * (1 - slippage_pct) else p * (1 + slippage_pct)

/-- The value appended to the equity curve at a bar with close `p`
(engine.py lines 107-114), computed from the state as of the top of the bar. -/
def markEquity (s : BTState) (p : ℚ) : ℚ :=
  match s.position with
  | some pos => s.balance + (p - pos.entry_price) * pos.qty * (pos.side : ℚ)
  | none => s.balance

/-- Mark-to-market phase of one bar: append `markEquity` to the curve. -/
def mtmStep (s : BTState) (p : ℚ) : BTState :=
  { s with equity_curve := s.equity_curve ++ [markEquity s p] }

/-- Exit phase of one bar (engine.py lines 117-140). -/
def exitStep (cfg : BTConfig) (i : Nat) (p : ℚ) (s : BTState) : BTState :=
  match s.position with
  | none => s
  | some pos =>
    match exitReason pos.side p pos.stop pos.tp with
    | none => s
    | some _ =>
      let exit_price := exitFillPrice p cfg.slippage_pct pos.side
      let fee := |pos.qty| * exit_price * cfg.fee_pct
      let pnl := (exit_price - pos.entry_price_net) * pos.qty * (pos.side : ℚ) - fee
      let ret := pnl / max (1e-9 : ℚ) cfg.initial_capital
      let tr : TradeResult :=
        ⟨pos.entry_idx, i, pos.side, pos.entry_price, exit_price, pos.qty, pnl, ret⟩
      { s with
        balance := s.balance + pnl,
        trades := s.trades ++ [tr],
        position := none }

/-- Entry phase of one bar, after the signal has been read and found nonzero
(engine.py lines 143-166).  `aOpt = none` models a NaN ATR value, which the
source replaces by 0.0 before the `a <= 0` test. -/
def entryStep (cfg : BTConfig) (i : Nat) (p : ℚ) (side : Int) (aOpt : Option ℚ)
    (s : BTState) : BTState :=
  let a : ℚ := aOpt.getD 0
  if a ≤ 0 then s
  else
    let qty := atr_position_size s.balance cfg.risk_per_trade a p cfg.atr_stop_mult
    if qty ≤ 0 then s
    else
      let entry_price := entryFillPrice p cfg.slippage_pct side
      let fee := |qty| * entry_price * cfg.fee_pct
      let entry_price_net :=
        entry_price + fee / max (1e-9 : ℚ) |qty| * (if side = 1 then 1 else -1)
      let stopPrice := entry_price - (side : ℚ) * (a * cfg.atr_stop_mult)
      let tpPrice := entry_price + (side : ℚ) * (a * cfg.atr_stop_mult * cfg.tp_mult)
      let pos : Position :=
        ⟨side, qty, entry_price, entry_price_net, stopPrice, tpPrice, i⟩
      { s with position := some pos }

/-- One iteration of the `for i in range(len(df))` loop of `backtest`, for bar
`i` with close `p`.  The signal is read only when the position is `none` after
the exit phase, and the ATR value only when the signal is nonzero, matching
the short-circuit evaluation in the source; an out-of-range read is the
`IndexError` the source would raise. -/
def barStep (cfg : BTConfig) (signal : List Int) (atr : List (Option ℚ))
    (i : Nat) (p : ℚ) (s : BTState) : Except String BTState :=
  let s2 := exitStep cfg i p (mtmStep s p)
  match s2.position with
  | some _ => .ok s2
  | none =>
    match signal.get? i with
    | none => .error "IndexError: signal"
    | some sig =>
      if sig ≠ 0 then
        match atr.get? i with
        | none => .error "IndexError: atr"
        | some aOpt => .ok (entryStep cfg i p sig aOpt s2)
      else .ok s2

/-- The loop of `backtest`, folding `barStep` over the remaining closes,
starting at bar index `i`. -/
def backtestLoop (cfg : BTConfig) (signal : List Int) (atr : List (Option ℚ)) :
    Nat → List ℚ → BTState → Except String BTState
  | _, [], s => .ok s
  | i, p :: ps, s =>
    match barStep cfg signal atr i p s with
    | .error e => .error e
    | .ok s1 => backtestLoop cfg signal atr (i + 1) ps s1
  termination_by structural _ ps _ => ps

/-- Initial loop state: `balance = initial_capital`, empty accumulators,
no position. -/
def initState (cfg : BTConfig) : BTState :=
  { balance := cfg.initial_capital, equity_curve := [], position := none, trades := [] }

/-- `backtest` from engine.py: price closes, aligned signal and ATR series,
scalar configuration; returns the equity curve and the trade ledger, or the
`IndexError` raised by a too-short signal/ATR series. -/
def backtest (price : List ℚ) (signal : List Int) (atr : List (Option ℚ))
    (cfg : BTConfig) : Except String (List ℚ × List TradeResult) :=
  match backtestLoop cfg signal atr 0 price (initState cfg) with
  | .error e => .error e
  | .ok s => .ok (s.equity_curve, s.trades)

/-- Sum of realized P&L over a trade ledger. -/
def totalPnl (trades : List TradeResult) : ℚ :=
  (trades.map TradeResult.pnl).sum

/-- The trade ledger of a run, with an error collapsing to the empty ledger. -/
def tradesOf (r : Except String (List ℚ × List TradeResult)) : List TradeResult :=
  match r with
  | .ok (_, t) => t
  | .error _ => []

/-- The equity curve of a run, with an error collapsing to the empty curve. -/
def equityOf (r : Except String (List ℚ × List TradeResult)) : List ℚ :=
  match r with
  | .ok (eq, _) => eq
  | .error _ => []

/-! ### Step characterization lemmas -/

theorem mtmStep_balance (s : BTState) (p : ℚ) : (mtmStep s p).balance = s.balance := rfl

theorem mtmStep_position (s : BTState) (p : ℚ) : (mtmStep s p).position = s.position := rfl

theorem mtmStep_trades (s : BTState) (p : ℚ) : (mtmStep s p).trades = s.trades := rfl

theorem mtmStep_equity (s : BTState) (p : ℚ) :
    (mtmStep s p).equity_curve = s.equity_curve ++ [markEquity s p] := rfl

theorem exitStep_flat (cfg : BTConfig) (i : Nat) (p : ℚ) (s : BTState)
    (h : s.position = none) : exitStep cfg i p s = s := by
  simp only [exitStep, h]

theorem exitStep_hold (cfg : BTConfig) (i : Nat) (p : ℚ) (s : BTState) (pos : Position)
    (h : s.position = some pos) (hr : exitReason pos.side p pos.stop pos.tp = none) :
    exitStep cfg i p s = s := by
  simp only [exitStep, h, hr]

/-- Closing transition of the exit phase: when a position is open and the
stop/take-profit rule fires, the realized trade is appended, the balance is
incremented by its pnl, and the state returns to flat. -/
theorem exitStep_close (cfg : BTConfig) (i : Nat) (p : ℚ) (s : BTState) (pos : Position)
    (h : s.position = some pos) (hr : (exitReason pos.side p pos.stop pos.tp).isSome) :
    exitStep cfg i p s =
      { s with
        balance := s.balance +
          ((exitFillPrice p cfg.slippage_pct pos.side - pos.entry_price_net) * pos.qty *
              (pos.side : ℚ) -
            |pos.qty| * exitFillPrice p cfg.slippage_pct pos.side * cfg.fee_pct),
        trades := s.trades ++
          [⟨pos.entry_idx, i, pos.side, pos.entry_price,
            exitFillPrice p cfg.slippage_pct pos.side, pos.qty,
            (exitFillPrice p cfg.slippage_pct pos.side - pos.entry_price_net) * pos.qty *
                (pos.side : ℚ) -
              |pos.qty| * exitFillPrice p cfg.slippage_pct pos.side * cfg.fee_pct,
            ((exitFillPrice p cfg.slippage_pct pos.side - pos.entry_price_net) * pos.qty *
                (pos.side : ℚ) -
              |pos.qty| * exitFillPrice p cfg.slippage_pct pos.side * cfg.fee_pct) /
              max (1e-9 : ℚ) cfg.initial_capital⟩],
        position := none } := by
  cases hr' : exitReason pos.side p pos.stop pos.tp with
  | none => rw [hr'] at hr; simp at hr
  | some r => simp only [exitStep, h, hr']

theorem exitStep_equity (cfg : BTConfig) (i : Nat) (p : ℚ) (s : BTState) :
    (exitStep cfg i p s).equity_curve = s.equity_curve := by
  cases h : s.position with
  | none => rw [exitStep_flat cfg i p s h]
  | some pos =>
    cases hr : exitReason pos.side p pos.stop pos.tp with
    | none => rw [exitStep_hold cfg i p s pos h hr]
    | some r => rw [exitStep_close cfg i p s pos h (by rw [hr]; rfl)]

/-- Blocked entry: NaN/zero/negative volatility or non-positive sized
quantity leaves the state untouched. -/
theorem entryStep_skip (cfg : BTConfig) (i : Nat) (p : ℚ) (side : Int) (aOpt : Option ℚ)
    (s : BTState)
    (h : aOpt.getD 0 ≤ 0 ∨
      atr_position_size s.balance cfg.risk_per_trade (aOpt.getD 0) p cfg.atr_stop_mult ≤ 0) :
    entryStep cfg i p side aOpt s = s := by
  simp only [entryStep]
  rcases h with h | h
  · rw [if_pos h]
  · by_cases ha : aOpt.getD 0 ≤ 0
    · rw [if_pos ha]
    · rw [if_neg ha, if_pos h]

/-- Successful entry: positive volatility and positive sized quantity open a
position carrying the slippage-adjusted entry price, the fee-shifted
break-even price, and the stop/take-profit levels of engine.py. -/
theorem entryStep_open (cfg : BTConfig) (i : Nat) (p : ℚ) (side : Int) (a : ℚ)
    (s : BTState) (ha : 0 < a)
    (hq : 0 < atr_position_size s.balance cfg.risk_per_trade a p cfg.atr_stop_mult) :
    entryStep cfg i p side (some a) s =
      { s with position := some ⟨side,
         atr_position_size s.balance cfg.risk_per_trade a p cfg.atr_stop_mult,
         entryFillPrice p cfg.slippage_pct side,
         entryFillPrice p cfg.slippage_pct side +
           (|atr_position_size s.balance cfg.risk_per_trade a p cfg.atr_stop_mult| *
              entryFillPrice p cfg.slippage_pct side * cfg.fee_pct) /
             max (1e-9 : ℚ)
               |atr_position_size s.balance cfg.risk_per_trade a p cfg.atr_stop_mult| *
             (if side = 1 then 1 else -1),
         entryFillPrice p cfg.slippage_pct side - (side : ℚ) * (a * cfg.atr_stop_mult),
         entryFillPrice p cfg.slippage_pct side +
           (side : ℚ) * (a * cfg.atr_stop_mult * cfg.tp_mult),
         i⟩ } := by
  simp only [entryStep, Option.getD_some]
  rw [if_neg (not_le.mpr ha), if_neg (not_le.mpr hq)]

theorem entryStep_balance (cfg : BTConfig) (i : Nat) (p : ℚ) (side : Int)
    (aOpt : Option ℚ) (s : BTState) : (entryStep cfg i p side aOpt s).balance = s.balance := by
  simp only [entryStep]
  by_cases ha : aOpt.getD 0 ≤ 0
  · rw [if_pos ha]
  · rw [if_neg ha]
    by_cases hq : atr_position_size s.balance cfg.risk_per_trade (aOpt.getD 0) p
        cfg.atr_stop_mult ≤ 0
    · rw [if_pos hq]
    · rw [if_neg hq]

theorem entryStep_equity (cfg : BTConfig) (i : Nat) (p : ℚ) (side : Int)
    (aOpt : Option ℚ) (s : BTState) :
    (entryStep cfg i p side aOpt s).equity_curve = s.equity_curve := by
  simp only [entryStep]
  by_cases ha : aOpt.getD 0 ≤ 0
  · rw [if_pos ha]
  · rw [if_neg ha]
    by_cases hq : atr_position_size s.balance cfg.risk_per_trade (aOpt.getD 0) p
        cfg.atr_stop_mult ≤ 0
    · rw [if_pos hq]
    · rw [if_neg hq]

theorem entryStep_trades (cfg : BTConfig) (i : Nat) (p : ℚ) (side : Int)
    (aOpt : Option ℚ) (s : BTState) : (entryStep cfg i p side aOpt s).trades = s.trades := by
  simp only [entryStep]
  by_cases ha : aOpt.getD 0 ≤ 0
  · rw [if_pos ha]
  · rw [if_neg ha]
    by_cases hq : atr_position_size s.balance cfg.risk_per_trade (aOpt.getD 0) p
        cfg.atr_stop_mult ≤ 0
    · rw [if_pos hq]
    · rw [if_neg hq]

/-- Every successful bar is either mark-to-market plus exit phase alone, or
additionally an entry phase driven by the signal and ATR read at index `i`. -/
theorem barStep_ok_cases (cfg : BTConfig) (signal : List Int) (atr : List (Option ℚ))
    (i : Nat) (p : ℚ) (s s' : BTState) (h : barStep cfg signal atr i p s = .ok s') :
    s' = exitStep cfg i p (mtmStep s p) ∨
    ∃ sig aOpt, signal.get? i = some sig ∧ atr.get? i = some aOpt ∧ sig ≠ 0 ∧
      s' = entryStep cfg i p sig aOpt (exitStep cfg i p (mtmStep s p)) := by
  simp only [barStep] at h
  cases hpos : (exitStep cfg i p (mtmStep s p)).position with
  | some pos =>
    simp only [hpos, Except.ok.injEq] at h
    exact Or.inl h.symm
  | none =>
    simp only [hpos] at h
    cases hs : signal.get? i with
    | none =>
      simp only [hs] at h
      exact Except.noConfusion h
    | some sig =>
      simp only [hs] at h
      by_cases h0 : sig = 0
      · rw [if_neg (not_not_intro h0)] at h
        simp only [Except.ok.injEq] at h
        exact Or.inl h.symm
      · rw [if_pos h0] at h
        cases hatr : atr.get? i with
        | none =>
          simp only [hatr] at h
          exact Except.noConfusion h
        | some aOpt =>
          simp only [hatr, Except.ok.injEq] at h
          exact Or.inr ⟨sig, aOpt, rfl, rfl, h0, h.symm⟩

/-- A successful bar appends exactly the pre-bar mark-to-market value to the
equity curve. -/
theorem barStep_ok_equity (cfg : BTConfig) (signal : List Int) (atr : List (Option ℚ))
    (i : Nat) (p : ℚ) (s s' : BTState) (h : barStep cfg signal atr i p s = .ok s') :
    s'.equity_curve = s.equity_curve ++ [markEquity s p] := by
  rcases barStep_ok_cases cfg signal atr i p s s' h with h1 | ⟨sig, aOpt, _, _, _, h1⟩
  · rw [h1, exitStep_equity, mtmStep_equity]
  · rw [h1, entryStep_equity, exitStep_equity, mtmStep_equity]

theorem barStep_ok_of_lt (cfg : BTConfig) (signal : List Int) (atr : List (Option ℚ))
    (i : Nat) (p : ℚ) (s : BTState)
    (hsig : i < signal.length) (hatr : i < atr.length) :
    ∃ s', barStep cfg signal atr i p s = .ok s' := by
  have hs : signal.get? i = some (signal.get ⟨i, hsig⟩) := List.get?_eq_get hsig
  have ha : atr.get? i = some (atr.get ⟨i, hatr⟩) := List.get?_eq_get hatr
  cases hpos : (exitStep cfg i p (mtmStep s p)).position with
  | some pos =>
    exact ⟨exitStep cfg i p (mtmStep s p), by simp only [barStep, hpos]⟩
  | none =>
    by_cases h0 : signal.get ⟨i, hsig⟩ = 0
    · exact ⟨exitStep cfg i p (mtmStep s p),
        by simp only [barStep, hpos, hs]; rw [if_neg (not_not_intro h0)]⟩
    · exact ⟨entryStep cfg i p (signal.get ⟨i, hsig⟩) (atr.get ⟨i, hatr⟩)
          (exitStep cfg i p (mtmStep s p)),
        by simp only [barStep, hpos, hs]; rw [if_pos h0, ha]⟩

/-- A successful run appends one equity value per processed bar. -/
theorem backtestLoop_equity_len (cfg : BTConfig) (signal : List Int)
    (atr : List (Option ℚ)) :
    ∀ (ps : List ℚ) (i : Nat) (s s' : BTState),
      backtestLoop cfg signal atr i ps s = .ok s' →
      s'.equity_curve.length = s.equity_curve.length + ps.length := by
  intro ps
  induction ps with
  | nil =>
    intro i s s' h
    simp only [backtestLoop, Except.ok.injEq] at h
    rw [← h]
    simp
  | cons p ps ih =>
    intro i s s' h
    simp only [backtestLoop] at h
    cases hb : barStep cfg signal atr i p s with
    | error e =>
      simp only [hb] at h
      exact Except.noConfusion h
    | ok s1 =>
      simp only [hb] at h
      have hlen := ih (i + 1) s1 s' h
      have he := barStep_ok_equity cfg signal atr i p s s1 hb
      rw [hlen, he]
      simp
      omega

/-- A successful run only ever appends to the equity curve. -/
theorem backtestLoop_equity_prefix (cfg : BTConfig) (signal : List Int)
    (atr : List (Option ℚ)) :
    ∀ (ps : List ℚ) (i : Nat) (s s' : BTState),
      backtestLoop cfg signal atr i ps s = .ok s' →
      ∃ l, s'.equity_curve = s.equity_curve ++ l := by
  intro ps
  induction ps with
  | nil =>
    intro i s s' h
    simp only [backtestLoop, Except.ok.injEq] at h
    exact ⟨[], by rw [← h]; simp⟩
  | cons p ps ih =>
    intro i s s' h
    simp only [backtestLoop] at h
    cases hb : barStep cfg signal atr i p s with
    | error e =>
      simp only [hb] at h
      exact Except.noConfusion h
    | ok s1 =>
      simp only [hb] at h
      obtain ⟨l, hl⟩ := ih (i + 1) s1 s' h
      have he := barStep_ok_equity cfg signal atr i p s s1 hb
      exact ⟨[markEquity s p] ++ l, by rw [hl, he, List.append_assoc]⟩

/-- When the signal and ATR series cover all remaining bars, the loop cannot
fail. -/
theorem backtestLoop_ok_of_le (cfg : BTConfig) (signal : List Int)
    (atr : List (Option ℚ)) :
    ∀ (ps : List ℚ) (i : Nat) (s : BTState),
      i + ps.length ≤ signal.length → i + ps.length ≤ atr.length →
      ∃ s', backtestLoop cfg signal atr i ps s = .ok s' := by
  intro ps
  induction ps with
  | nil => intro i s _ _; exact ⟨s, rfl⟩
  | cons p ps ih =>
    intro i s hsig hatr
    have hsl : i < signal.length := by simp at hsig; omega
    have hal : i < atr.length := by simp at hatr; omega
    obtain ⟨s1, hb⟩ := barStep_ok_of_lt cfg signal atr i p s hsl hal
    obtain ⟨s', hrest⟩ := ih (i + 1) s1 (by simp at hsig ⊢; omega) (by simp at hatr ⊢; omega)
    refine ⟨s', ?_⟩
    simp only [backtestLoop, hb]
    exact hrest

/-! ### Claims -/

/-- C2: every successful bar appends exactly one equity value, computed
before the bar's exit/entry decisions from the pre-bar state: when a
position is open the value is `balance + (close - entry_price) * qty * side`
(using `entry_price`, not `entry_price_net`), and when flat it is `balance`
unchanged; consequently a successful run has
`len(equity_curve) = len(price_series)`. -/
theorem C2_equity_append (cfg : BTConfig) (signal : List Int) (atr : List (Option ℚ))
    (i : Nat) (p : ℚ) (s s' : BTState)
    (h : barStep cfg signal atr i p s = .ok s') :
    s'.equity_curve = s.equity_curve ++ [markEquity s p]
    ∧ (∀ pos, s.position = some pos →
        markEquity s p = s.balance + (p - pos.entry_price) * pos.qty * (pos.side : ℚ))
    ∧ (s.position = none → markEquity s p = s.balance)
    ∧ (∀ (price : List ℚ) (eq : List ℚ) (tr : List TradeResult),
        backtest price signal atr cfg = .ok (eq, tr) → eq.length = price.length) := by
  refine ⟨barStep_ok_equity cfg signal atr i p s s' h, ?_, ?_, ?_⟩
  · intro pos hpos
    simp [markEquity, hpos]
  · intro hpos
    simp [markEquity, hpos]
  · intro price eq tr hbt
    unfold backtest at hbt
    cases hl : backtestLoop cfg signal atr 0 price (initState cfg) with
    | error e =>
      rw [hl] at hbt
      exact Except.noConfusion hbt
    | ok sf =>
      rw [hl] at hbt
      simp only [Except.ok.injEq, Prod.mk.injEq] at hbt
      obtain ⟨heq, -⟩ := hbt
      have := backtestLoop_equity_len cfg signal atr price 0 (initState cfg) sf hl
      rw [← heq, this]
      simp [initState]

theorem C2_equity_append_witness :
    (⟨100, [100], none, []⟩ : BTState).equity_curve =
      (⟨100, [], none, []⟩ : BTState).equity_curve ++
        [markEquity ⟨100, [], none, []⟩ 5] :=
  (C2_equity_append ⟨100, 1, 1, 1, 0, 0⟩ [0] [some 1] 0 5 ⟨100, [], none, []⟩
    ⟨100, [100], none, []⟩ rfl).1

/-- C9: for a non-empty price series, a successful run's first equity value
is exactly `initial_capital`: the run starts flat with
`balance = initial_capital` and bar 0's mark-to-market precedes any entry. -/
theorem C9_first_equity (price : List ℚ) (signal : List Int) (atr : List (Option ℚ))
    (cfg : BTConfig) (eq : List ℚ) (tr : List TradeResult)
    (hne : price ≠ [])
    (h : backtest price signal atr cfg = .ok (eq, tr)) :
    eq.head? = some cfg.initial_capital := by
  unfold backtest at h
  cases hl : backtestLoop cfg signal atr 0 price (initState cfg) with
  | error e =>
    rw [hl] at h
    exact Except.noConfusion h
  | ok sf =>
    rw [hl] at h
    simp only [Except.ok.injEq, Prod.mk.injEq] at h
    obtain ⟨heq, -⟩ := h
    cases price with
    | nil => exact absurd rfl hne
    | cons p ps =>
      simp only [backtestLoop] at hl
      cases hb : barStep cfg signal atr 0 p (initState cfg) with
      | error e =>
        rw [hb] at hl
        exact Except.noConfusion hl
      | ok s1 =>
        rw [hb] at hl
        have h1 : s1.equity_curve = [cfg.initial_capital] := by
          have h2 := barStep_ok_equity cfg signal atr 0 p (initState cfg) s1 hb
          simpa [initState, markEquity] using h2
        obtain ⟨l, hl2⟩ := backtestLoop_equity_prefix cfg signal atr ps 1 s1 sf hl
        rw [← heq, hl2, h1]
        rfl

theorem C9_first_equity_witness : ([(7 : ℚ)]).head? = some ((7 : ℚ)) :=
  C9_first_equity [5] [0] [some 1] ⟨7, 1, 1, 1, 0, 0⟩ [7] [] (by simp) rfl

/-- C4 (amended): the engine performs no precondition validation at all.
For any configuration, including one with negative fee/slippage/risk, and
any input whose signal and ATR series are at least as long as the price
series, the simulation completes normally; a shorter signal or ATR series
only fails with an index error at the first bar that actually reads past
its end, after earlier bars were already processed. -/
theorem C4_no_validation (cfg : BTConfig) (price : List ℚ) (signal : List Int)
    (atr : List (Option ℚ))
    (hsig : price.length ≤ signal.length) (hatr : price.length ≤ atr.length) :
    ∃ out, backtest price signal atr cfg = .ok out := by
  obtain ⟨s', h⟩ := backtestLoop_ok_of_le cfg signal atr price 0 (initState cfg)
    (by simpa) (by simpa)
  refine ⟨(s'.equity_curve, s'.trades), ?_⟩
  unfold backtest
  rw [h]

theorem C4_no_validation_witness :
    ∃ out, backtest [100] [1] [some 1] ⟨100, 1/2, 1, 1, -1/10, 0⟩ = .ok out :=
  C4_no_validation ⟨100, 1/2, 1, 1, -1/10, 0⟩ [100] [1] [some 1] (by simp) (by simp)

/-- C4 counterexample: the claim asserts that a negative `fee_pct`
configuration raises a fatal precondition error before any bar is processed,
with no equity values emitted and no trades recorded.  In fact a run with
`fee_pct = -1/10` completes successfully, emits a full two-bar equity curve,
and records a trade. -/
theorem C4_counterexample :
    backtest [100, 99] [1, 0] [some 1, some 1] ⟨100, 1/2, 1, 1, -1/10, 0⟩ =
      .ok ([100, 50], [⟨0, 1, 1, 100, 99, 50, 945, 189/20⟩]) := by
  norm_num [backtest, backtestLoop, barStep, exitStep, entryStep, mtmStep, markEquity,
    atr_position_size, exitReason, entryFillPrice, exitFillPrice, initState, max_def,
    List.get?]

/-- C7: slippage always moves the fill against the trader: long entry and
short exit execute at `raw * (1 + slippage_rate)`; short entry and long exit
execute at `raw * (1 - slippage_rate)`. -/
theorem C7_slippage_adverse (p slip : ℚ) :
    entryFillPrice p slip 1 = p * (1 + slip) ∧
    exitFillPrice p slip (-1) = p * (1 + slip) ∧
    entryFillPrice p slip (-1) = p * (1 - slip) ∧
    exitFillPrice p slip 1 = p * (1 - slip) := by
  refine ⟨rfl, ?_, ?_, rfl⟩ <;> norm_num [entryFillPrice, exitFillPrice]

/-- C3: an open position exits exactly when the close-only stop condition or
take-profit condition holds, and when both hold on the same bar the branch
ordering makes the recorded exit reason the stop, never the take-profit. -/
theorem C3_stop_priority (cfg : BTConfig) (i : Nat) (p : ℚ) (s : BTState) (pos : Position)
    (side : Int) (stopPrice tpPrice : ℚ)
    (hpos : s.position = some pos) :
    ((exitReason side p stopPrice tpPrice).isSome ↔
      (((side = 1 ∧ p ≤ stopPrice) ∨ (side = -1 ∧ p ≥ stopPrice)) ∨
       ((side = 1 ∧ p ≥ tpPrice) ∨ (side = -1 ∧ p ≤ tpPrice))))
    ∧ (((side = 1 ∧ p ≤ stopPrice) ∨ (side = -1 ∧ p ≥ stopPrice)) →
        exitReason side p stopPrice tpPrice = some .stop)
    ∧ ((exitStep cfg i p s).position = none ↔
        (exitReason pos.side p pos.stop pos.tp).isSome) := by
  refine ⟨?_, ?_, ?_⟩
  · unfold exitReason
    by_cases h1 : ((side = 1 ∧ p ≤ stopPrice) ∨ (side = -1 ∧ p ≥ stopPrice))
    · simp [h1]
    · by_cases h2 : ((side = 1 ∧ p ≥ tpPrice) ∨ (side = -1 ∧ p ≤ tpPrice)) <;> simp [h1, h2]
  · intro h1
    unfold exitReason
    rw [if_pos h1]
  · cases hr : exitReason pos.side p pos.stop pos.tp with
    | none =>
      rw [exitStep_hold cfg i p s pos hpos hr]
      simp [hpos]
    | some r =>
      rw [exitStep_close cfg i p s pos hpos (by rw [hr]; rfl)]
      simp

theorem C3_stop_priority_witness : exitReason 1 100 100 100 = some .stop :=
  (C3_stop_priority ⟨100, 1, 1, 1, 0, 0⟩ 0 100 ⟨0, [], some ⟨1, 1, 100, 100, 100, 100, 0⟩, []⟩
    ⟨1, 1, 100, 100, 100, 100, 0⟩ 1 100 100 rfl).2.1 (Or.inl ⟨rfl, le_refl 100⟩)

/-- C6: on a bar where the engine would enter (flat after the exit phase,
nonzero signal) but the ATR value is NaN or `≤ 0`, or the sized quantity is
`≤ 0`, the bar is not fatal: the engine returns successfully with the state
exactly as left by the mark-to-market and exit phases — so those phases are
never skipped, no entry happens, and the loop advances normally. -/
theorem C6_entry_skip_bar (cfg : BTConfig) (signal : List Int) (atr : List (Option ℚ))
    (i : Nat) (p : ℚ) (s : BTState) (sig : Int) (aOpt : Option ℚ)
    (hpos2 : (exitStep cfg i p (mtmStep s p)).position = none)
    (hs : signal.get? i = some sig) (hsig : sig ≠ 0)
    (ha : atr.get? i = some aOpt)
    (hblock : aOpt.getD 0 ≤ 0 ∨
      atr_position_size (exitStep cfg i p (mtmStep s p)).balance cfg.risk_per_trade
        (aOpt.getD 0) p cfg.atr_stop_mult ≤ 0) :
    barStep cfg signal atr i p s = .ok (exitStep cfg i p (mtmStep s p))
    ∧ (exitStep cfg i p (mtmStep s p)).equity_curve = s.equity_curve ++ [markEquity s p]
    ∧ (exitStep cfg i p (mtmStep s p)).position = none := by
  refine ⟨?_, by rw [exitStep_equity, mtmStep_equity], hpos2⟩
  simp only [barStep, hpos2, hs]
  rw [if_pos hsig]
  simp only [ha]
  rw [entryStep_skip cfg i p sig aOpt _ hblock]

theorem C6_entry_skip_bar_witness :
    barStep ⟨100, 1, 1, 1, 0, 0⟩ [1] [none] 0 5 ⟨100, [], none, []⟩ =
      .ok (exitStep ⟨100, 1, 1, 1, 0, 0⟩ 0 5 (mtmStep ⟨100, [], none, []⟩ 5)) :=
  (C6_entry_skip_bar ⟨100, 1, 1, 1, 0, 0⟩ [1] [none] 0 5 ⟨100, [], none, []⟩ 1 none
    rfl rfl (by decide) rfl (Or.inl (le_refl 0))).1

/-- C5: a bar whose exit check closes the open position still evaluates the
entry check on that same bar: with a nonzero signal and successful sizing, a
new position opens with `entry_idx` equal to that same bar, alongside the
TradeResult just recorded for the closed position. -/
theorem C5_same_bar_reopen (cfg : BTConfig) (signal : List Int) (atr : List (Option ℚ))
    (i : Nat) (p : ℚ) (s : BTState) (pos : Position) (sig : Int) (a : ℚ)
    (hpos : s.position = some pos)
    (hexit : (exitReason pos.side p pos.stop pos.tp).isSome)
    (hs : signal.get? i = some sig) (hsig : sig ≠ 0)
    (ha : atr.get? i = some (some a)) (hapos : 0 < a)
    (hq : 0 < atr_position_size (exitStep cfg i p (mtmStep s p)).balance
        cfg.risk_per_trade a p cfg.atr_stop_mult) :
    ∃ s', barStep cfg signal atr i p s = .ok s'
      ∧ (∃ pos', s'.position = some pos' ∧ pos'.entry_idx = i)
      ∧ (∃ t, s'.trades = s.trades ++ [t] ∧ t.entry_idx = pos.entry_idx ∧ t.exit_idx = i) := by
  have hp1 : (mtmStep s p).position = some pos := by
    rw [mtmStep_position]
    exact hpos
  have hclose := exitStep_close cfg i p (mtmStep s p) pos hp1 hexit
  have hopen := entryStep_open cfg i p sig a (exitStep cfg i p (mtmStep s p)) hapos hq
  refine ⟨entryStep cfg i p sig (some a) (exitStep cfg i p (mtmStep s p)), ?_, ?_, ?_⟩
  · simp only [barStep, hclose, hs]
    rw [if_pos hsig]
    simp only [ha]
  · rw [hopen]
    exact ⟨_, rfl, rfl⟩
  · have htr : (entryStep cfg i p sig (some a) (exitStep cfg i p (mtmStep s p))).trades =
        s.trades ++
          [⟨pos.entry_idx, i, pos.side, pos.entry_price,
            exitFillPrice p cfg.slippage_pct pos.side, pos.qty,
            (exitFillPrice p cfg.slippage_pct pos.side - pos.entry_price_net) * pos.qty *
                (pos.side : ℚ) -
              |pos.qty| * exitFillPrice p cfg.slippage_pct pos.side * cfg.fee_pct,
            ((exitFillPrice p cfg.slippage_pct pos.side - pos.entry_price_net) * pos.qty *
                (pos.side : ℚ) -
              |pos.qty| * exitFillPrice p cfg.slippage_pct pos.side * cfg.fee_pct) /
              max (1e-9 : ℚ) cfg.initial_capital⟩] := by
      rw [entryStep_trades, hclose]
      dsimp only
      rw [mtmStep_trades]
    exact ⟨_, htr, rfl, rfl⟩

theorem C5_same_bar_reopen_witness :
    ∃ s', barStep ⟨100, 1/2, 1, 1, 0, 0⟩ [0, 1] [some 1, some 1] 1 99
        ⟨100, [], some ⟨1, 50, 100, 100, 99, 101, 0⟩, []⟩ = .ok s'
      ∧ (∃ pos', s'.position = some pos' ∧ pos'.entry_idx = 1)
      ∧ (∃ t, s'.trades = [t] ∧ t.entry_idx = 0 ∧ t.exit_idx = 1) :=
  C5_same_bar_reopen ⟨100, 1/2, 1, 1, 0, 0⟩ [0, 1] [some 1, some 1] 1 99
    ⟨100, [], some ⟨1, 50, 100, 100, 99, 101, 0⟩, []⟩ ⟨1, 50, 100, 100, 99, 101, 0⟩ 1 1
    rfl (by decide) rfl (by decide) rfl (by norm_num)
    (by norm_num [exitStep, mtmStep, markEquity, exitReason, exitFillPrice,
      atr_position_size, max_def])

/-- C1: when a position entered through the engine's entry branch exits, the
realized P&L is `(exit_price - entry_price_net) * quantity * side - exit_fee`
with `entry_price_net = entry_price + sign * (entry_fee / quantity)`
(`sign = side`, i.e. `+1` long / `-1` short), the balance is incremented by
exactly this pnl, and the recorded TradeResult carries the same
double-counted value (the entry fee both shifts the cost basis and is not
refunded anywhere else).  The hypothesis `1e-9 ≤ qty` discharges the
source's `max(1e-9, abs(qty))` guard in the cost-basis shift. -/
theorem C1_round_trip_pnl (cfg : BTConfig) (i j : Nat) (p q : ℚ) (sig : Int) (a : ℚ)
    (s s' : BTState) (pos : Position)
    (hside : sig = 1 ∨ sig = -1)
    (hflat : s.position = none)
    (hentry : (entryStep cfg i p sig (some a) s).position = some pos)
    (hqty : (1e-9 : ℚ) ≤ pos.qty)
    (hpos' : s'.position = some pos)
    (hexit : (exitReason pos.side q pos.stop pos.tp).isSome) :
    pos.entry_price_net =
      pos.entry_price + (pos.side : ℚ) * ((pos.qty * pos.entry_price * cfg.fee_pct) / pos.qty)
    ∧ (exitStep cfg j q s').balance = s'.balance +
        ((exitFillPrice q cfg.slippage_pct pos.side - pos.entry_price_net) * pos.qty *
            (pos.side : ℚ) -
          pos.qty * exitFillPrice q cfg.slippage_pct pos.side * cfg.fee_pct)
    ∧ (exitStep cfg j q s').trades = s'.trades ++
        [⟨pos.entry_idx, j, pos.side, pos.entry_price,
          exitFillPrice q cfg.slippage_pct pos.side, pos.qty,
          (exitFillPrice q cfg.slippage_pct pos.side - pos.entry_price_net) * pos.qty *
              (pos.side : ℚ) -
            pos.qty * exitFillPrice q cfg.slippage_pct pos.side * cfg.fee_pct,
          ((exitFillPrice q cfg.slippage_pct pos.side - pos.entry_price_net) * pos.qty *
              (pos.side : ℚ) -
            pos.qty * exitFillPrice q cfg.slippage_pct pos.side * cfg.fee_pct) /
            max (1e-9 : ℚ) cfg.initial_capital⟩] := by
  have hq0 : (0 : ℚ) < pos.qty := lt_of_lt_of_le (by norm_num) hqty
  have habs : |pos.qty| = pos.qty := abs_of_pos hq0
  -- identify the position built by the entry branch
  have hnet : pos.entry_price_net =
      pos.entry_price + (pos.side : ℚ) *
        ((pos.qty * pos.entry_price * cfg.fee_pct) / pos.qty) := by
    by_cases ha : ((some a : Option ℚ).getD 0) ≤ 0
    · rw [entryStep_skip cfg i p sig (some a) s (Or.inl ha), hflat] at hentry
      exact Option.noConfusion hentry
    · by_cases hqle : atr_position_size s.balance cfg.risk_per_trade
          ((some a : Option ℚ).getD 0) p cfg.atr_stop_mult ≤ 0
      · rw [entryStep_skip cfg i p sig (some a) s (Or.inr hqle), hflat] at hentry
        exact Option.noConfusion hentry
      · rw [entryStep_open cfg i p sig a s (lt_of_not_le (by simpa using ha))
          (lt_of_not_le (by simpa using hqle))] at hentry
        simp only [Option.some.injEq] at hentry
        obtain rfl := hentry.symm
        dsimp only
        have habsX : |atr_position_size s.balance cfg.risk_per_trade a p cfg.atr_stop_mult| =
            atr_position_size s.balance cfg.risk_per_trade a p cfg.atr_stop_mult := habs
        have hqX : (1e-9 : ℚ) ≤
            atr_position_size s.balance cfg.risk_per_trade a p cfg.atr_stop_mult := hqty
        have hmax : max (1e-9 : ℚ)
            |atr_position_size s.balance cfg.risk_per_trade a p cfg.atr_stop_mult| =
            atr_position_size s.balance cfg.risk_per_trade a p cfg.atr_stop_mult := by
          rw [habsX]
          exact max_eq_right hqX
        rcases hside with rfl | rfl
        · rw [if_pos rfl, hmax, habsX]
          push_cast
          ring
        · rw [if_neg (by decide), hmax, habsX]
          push_cast
          ring
  have hclose := exitStep_close cfg j q s' pos hpos' hexit
  refine ⟨hnet, ?_, ?_⟩
  · rw [hclose]
    dsimp only
    rw [habs]
  · rw [hclose]
    dsimp only
    rw [habs]

theorem C1_round_trip_pnl_witness :
    (110 : ℚ) = 100 + ((1 : Int) : ℚ) * ((50 * 100 * (1/10 : ℚ)) / 50) :=
  (C1_round_trip_pnl ⟨100, 1/2, 1, 1, 1/10, 0⟩ 0 1 100 99 1 1
    (initState ⟨100, 1/2, 1, 1, 1/10, 0⟩)
    ⟨100, [], some ⟨1, 50, 100, 110, 99, 101, 0⟩, []⟩ ⟨1, 50, 100, 110, 99, 101, 0⟩
    (Or.inl rfl) rfl
    (by norm_num [entryStep, atr_position_size, entryFillPrice, initState, max_def])
    (by norm_num) rfl (by decide)).1

/-- Algebra of the round-trip P&L: at fixed fill prices `E` (entry) and `X`
(exit), fixed positive quantity `Q` and positive clamp `M`, the realized
P&L of one round trip is strictly decreasing in the fee rate. -/
theorem fee_pnl_anti (E X Q M f1 f2 sgn : ℚ) (hsgn : sgn = 1 ∨ sgn = -1)
    (hE : 0 < E) (hX : 0 < X) (hQ : 0 < Q) (hM : 0 < M) (hf : f1 < f2) :
    (X - (E + Q * E * f2 / M * sgn)) * Q * sgn - Q * X * f2 <
    (X - (E + Q * E * f1 / M * sgn)) * Q * sgn - Q * X * f1 := by
  have hMne : M ≠ 0 := ne_of_gt hM
  have hpos : 0 < Q * Q * E / M + Q * X :=
    add_pos (div_pos (mul_pos (mul_pos hQ hQ) hE) hM) (mul_pos hQ hX)
  have key : ∀ f : ℚ, (X - (E + Q * E * f / M * sgn)) * Q * sgn - Q * X * f =
      (X - E) * Q * sgn - (Q * Q * E / M + Q * X) * f := by
    intro f
    rcases hsgn with rfl | rfl <;> field_simp <;> ring
  rw [key f1, key f2]
  have hmul := mul_lt_mul_of_pos_left hf hpos
  linarith

/-- C8 (amended): total realized P&L over a whole run is not monotone in
`fee_pct` (see `C8_counterexample`: a larger fee can exhaust the balance,
suppressing a later losing entry that the lower-fee run still takes).  What
does hold is per-trade monotonicity: with the entry bar, exit bar, fill
prices and pre-entry state held fixed, a round trip under a strictly larger
fee rate realizes strictly smaller P&L, hence a strictly smaller post-exit
balance. -/
theorem C8_fee_monotone_per_trade (cfg : BTConfig) (fee1 fee2 : ℚ) (i j : Nat)
    (p q : ℚ) (sig : Int) (a : ℚ) (s : BTState)
    (hside : sig = 1 ∨ sig = -1)
    (hfee : fee1 < fee2)
    (ha : 0 < a)
    (hq : 0 < atr_position_size s.balance cfg.risk_per_trade a p cfg.atr_stop_mult)
    (hpe : 0 < entryFillPrice p cfg.slippage_pct sig)
    (hxe : 0 < exitFillPrice q cfg.slippage_pct sig)
    (hexit : (exitReason sig q
        (entryFillPrice p cfg.slippage_pct sig - (sig : ℚ) * (a * cfg.atr_stop_mult))
        (entryFillPrice p cfg.slippage_pct sig +
          (sig : ℚ) * (a * cfg.atr_stop_mult * cfg.tp_mult))).isSome) :
    (exitStep { cfg with fee_pct := fee2 } j q
        (entryStep { cfg with fee_pct := fee2 } i p sig (some a) s)).balance <
      (exitStep { cfg with fee_pct := fee1 } j q
        (entryStep { cfg with fee_pct := fee1 } i p sig (some a) s)).balance := by
  have habs : |atr_position_size s.balance cfg.risk_per_trade a p cfg.atr_stop_mult| =
      atr_position_size s.balance cfg.risk_per_trade a p cfg.atr_stop_mult :=
    abs_of_pos hq
  have hM : (0 : ℚ) < max (1e-9 : ℚ)
      (atr_position_size s.balance cfg.risk_per_trade a p cfg.atr_stop_mult) :=
    lt_of_lt_of_le (by norm_num) (le_max_left _ _)
  rw [entryStep_open { cfg with fee_pct := fee1 } i p sig a s ha hq,
    entryStep_open { cfg with fee_pct := fee2 } i p sig a s ha hq,
    exitStep_close { cfg with fee_pct := fee1 } j q _ _ rfl hexit,
    exitStep_close { cfg with fee_pct := fee2 } j q _ _ rfl hexit]
  dsimp only
  rw [habs]
  rcases hside with rfl | rfl
  · norm_num
    have h := fee_pnl_anti (entryFillPrice p cfg.slippage_pct 1)
      (exitFillPrice q cfg.slippage_pct 1)
      (atr_position_size s.balance cfg.risk_per_trade a p cfg.atr_stop_mult)
      (max (1e-9 : ℚ) (atr_position_size s.balance cfg.risk_per_trade a p cfg.atr_stop_mult))
      fee1 fee2 1 (Or.inl rfl) hpe hxe hq hM hfee
    linarith
  · norm_num
    have h := fee_pnl_anti (entryFillPrice p cfg.slippage_pct (-1))
      (exitFillPrice q cfg.slippage_pct (-1))
      (atr_position_size s.balance cfg.risk_per_trade a p cfg.atr_stop_mult)
      (max (1e-9 : ℚ) (atr_position_size s.balance cfg.risk_per_trade a p cfg.atr_stop_mult))
      fee1 fee2 (-1) (Or.inr rfl) hpe hxe hq hM hfee
    linarith

theorem C8_fee_monotone_per_trade_witness :
    (exitStep { (⟨100, 1/2, 1, 1, 0, 0⟩ : BTConfig) with fee_pct := 1/10 } 1 99
        (entryStep { (⟨100, 1/2, 1, 1, 0, 0⟩ : BTConfig) with fee_pct := 1/10 } 0 100 1 (some 1)
          (initState ⟨100, 1/2, 1, 1, 0, 0⟩))).balance <
      (exitStep { (⟨100, 1/2, 1, 1, 0, 0⟩ : BTConfig) with fee_pct := 0 } 1 99
        (entryStep { (⟨100, 1/2, 1, 1, 0, 0⟩ : BTConfig) with fee_pct := 0 } 0 100 1 (some 1)
          (initState ⟨100, 1/2, 1, 1, 0, 0⟩))).balance :=
  C8_fee_monotone_per_trade ⟨100, 1/2, 1, 1, 0, 0⟩ 0 (1/10) 0 1 100 99 1 1
    (initState ⟨100, 1/2, 1, 1, 0, 0⟩) (Or.inl rfl) (by norm_num) (by norm_num)
    (by norm_num [atr_position_size, initState, max_def])
    (by norm_num [entryFillPrice]) (by norm_num [exitFillPrice])
    (by norm_num [exitReason, entryFillPrice])

/-- C8 counterexample: the claim asserts that, at fixed series, a strictly
larger `fee_pct` yields strictly smaller total realized P&L on any run with
trades.  On the series below both runs trade, yet the `fee_pct = 1/10` run
ends with strictly larger total realized P&L than the `fee_pct = 0` run: the
larger fee drives the balance negative after the first trade, so the sizer
skips the second (heavily losing) entry that the zero-fee run still takes. -/
theorem C8_counterexample :
    (0 : ℚ) < 1/10
    ∧ tradesOf (backtest [100, 99, 100, 1] [1, 0, 1, 0] [some 1, some 1, some 1, some 1]
        ⟨100, 1/2, 1, 1, 0, 0⟩) ≠ []
    ∧ tradesOf (backtest [100, 99, 100, 1] [1, 0, 1, 0] [some 1, some 1, some 1, some 1]
        ⟨100, 1/2, 1, 1, 1/10, 0⟩) ≠ []
    ∧ totalPnl (tradesOf (backtest [100, 99, 100, 1] [1, 0, 1, 0]
        [some 1, some 1, some 1, some 1] ⟨100, 1/2, 1, 1, 0, 0⟩))
      < totalPnl (tradesOf (backtest [100, 99, 100, 1] [1, 0, 1, 0]
        [some 1, some 1, some 1, some 1] ⟨100, 1/2, 1, 1, 1/10, 0⟩)) := by
  refine ⟨by norm_num, ?_, ?_, ?_⟩
  · norm_num [backtest, backtestLoop, barStep, exitStep, entryStep, mtmStep, markEquity,
      atr_position_size, exitReason, entryFillPrice, exitFillPrice, initState, max_def,
      List.get?, tradesOf]
    try exact List.cons_ne_nil _ _
  · norm_num [backtest, backtestLoop, barStep, exitStep, entryStep, mtmStep, markEquity,
      atr_position_size, exitReason, entryFillPrice, exitFillPrice, initState, max_def,
      List.get?, tradesOf]
    try exact List.cons_ne_nil _ _
  · norm_num [backtest, backtestLoop, barStep, exitStep, entryStep, mtmStep, markEquity,
      atr_position_size, exitReason, entryFillPrice, exitFillPrice, initState, max_def,
      List.get?, totalPnl, tradesOf]

/-! ### Ledger ordering invariant (C10) -/

/-- Invariant of the `backtest` loop at the top of bar `i`: every recorded
trade closed strictly after it opened and no later than the bars already
processed, trades are chronologically chained, and an open position (if any)
was opened on an earlier bar, after every recorded exit. -/
def LedgerInv (i : Nat) (s : BTState) : Prop :=
  (∀ t ∈ s.trades, t.entry_idx < t.exit_idx) ∧
  (∀ t ∈ s.trades, t.exit_idx ≤ i) ∧
  List.Chain' (fun t u => t.exit_idx ≤ u.entry_idx) s.trades ∧
  (∀ pos, s.position = some pos →
    pos.entry_idx < i ∧ ∀ t ∈ s.trades, t.exit_idx ≤ pos.entry_idx)

theorem ledgerInv_mono (i j : Nat) (s : BTState) (hij : i ≤ j) (h : LedgerInv i s) :
    LedgerInv j s := by
  obtain ⟨h1, h2, h3, h4⟩ := h
  exact ⟨h1, fun t ht => le_trans (h2 t ht) hij, h3,
    fun pos hpos => ⟨lt_of_lt_of_le (h4 pos hpos).1 hij, (h4 pos hpos).2⟩⟩

theorem ledgerInv_init (cfg : BTConfig) : LedgerInv 0 (initState cfg) := by
  simp [LedgerInv, initState]

/-- The mark-to-market and exit phases of bar `i` preserve the invariant at
stage `i`: a trade closed on bar `i` has `exit_idx = i` and its entry index
is that of the open position, which predates bar `i`. -/
theorem ledgerInv_exit (cfg : BTConfig) (i : Nat) (p : ℚ) (s : BTState)
    (h : LedgerInv i s) : LedgerInv i (exitStep cfg i p (mtmStep s p)) := by
  have hmtm : LedgerInv i (mtmStep s p) := by
    simp only [LedgerInv, mtmStep_trades, mtmStep_position]
    exact h
  cases hpos : (mtmStep s p).position with
  | none => rwa [exitStep_flat cfg i p _ hpos]
  | some pos =>
    cases hr : exitReason pos.side p pos.stop pos.tp with
    | none => rwa [exitStep_hold cfg i p _ pos hpos hr]
    | some r =>
      rw [exitStep_close cfg i p _ pos hpos (by rw [hr]; rfl)]
      obtain ⟨h1, h2, h3, h4⟩ := hmtm
      have hp := h4 pos hpos
      simp only [LedgerInv]
      refine ⟨?_, ?_, ?_, ?_⟩
      · intro t ht
        rcases List.mem_append.mp ht with ht | ht
        · exact h1 t ht
        · simp only [List.mem_singleton] at ht
          subst ht
          exact hp.1
      · intro t ht
        rcases List.mem_append.mp ht with ht | ht
        · exact h2 t ht
        · simp only [List.mem_singleton] at ht
          subst ht
          exact le_refl i
      · rw [List.chain'_append]
        refine ⟨h3, List.chain'_singleton _, ?_⟩
        intro x hx y hy
        simp only [List.head?_cons, Option.mem_def, Option.some.injEq] at hy
        subst hy
        obtain ⟨hne, hxeq⟩ := List.mem_getLast?_eq_getLast hx
        exact hxeq ▸ hp.2 _ (List.getLast_mem hne)
      · intro pos' hpos'
        exact Option.noConfusion hpos'

/-- The entry phase of bar `i` preserves the invariant, advancing it to
stage `i + 1`: a position opened on bar `i` has `entry_idx = i`, no earlier
than every recorded exit. -/
theorem ledgerInv_entry (cfg : BTConfig) (i : Nat) (p : ℚ) (sig : Int)
    (aOpt : Option ℚ) (s : BTState) (h : LedgerInv i s) :
    LedgerInv (i + 1) (entryStep cfg i p sig aOpt s) := by
  rcases aOpt with _ | a
  · rw [entryStep_skip cfg i p sig none s (Or.inl (le_refl 0))]
    exact ledgerInv_mono i (i + 1) s (Nat.le_succ i) h
  · by_cases ha : a ≤ 0
    · rw [entryStep_skip cfg i p sig (some a) s (Or.inl (by simpa using ha))]
      exact ledgerInv_mono i (i + 1) s (Nat.le_succ i) h
    · by_cases hq : atr_position_size s.balance cfg.risk_per_trade a p cfg.atr_stop_mult ≤ 0
      · rw [entryStep_skip cfg i p sig (some a) s (Or.inr (by simpa using hq))]
        exact ledgerInv_mono i (i + 1) s (Nat.le_succ i) h
      · rw [entryStep_open cfg i p sig a s (lt_of_not_le ha) (lt_of_not_le hq)]
        obtain ⟨h1, h2, h3, h4⟩ := h
        simp only [LedgerInv]
        refine ⟨h1, fun t ht => le_trans (h2 t ht) (Nat.le_succ i), h3, ?_⟩
        intro pos' hpos'
        simp only [Option.some.injEq] at hpos'
        subst hpos'
        exact ⟨Nat.lt_succ_self i, fun t ht => h2 t ht⟩

theorem barStep_ledgerInv (cfg : BTConfig) (signal : List Int) (atr : List (Option ℚ))
    (i : Nat) (p : ℚ) (s s' : BTState)
    (h : barStep cfg signal atr i p s = .ok s') (hinv : LedgerInv i s) :
    LedgerInv (i + 1) s' := by
  rcases barStep_ok_cases cfg signal atr i p s s' h with h1 | ⟨sig, aOpt, hs, ha, h0, h1⟩
  · subst h1
    exact ledgerInv_mono i (i + 1) _ (Nat.le_succ i) (ledgerInv_exit cfg i p s hinv)
  · subst h1
    exact ledgerInv_entry cfg i p sig aOpt _ (ledgerInv_exit cfg i p s hinv)

theorem backtestLoop_ledgerInv (cfg : BTConfig) (signal : List Int)
    (atr : List (Option ℚ)) :
    ∀ (ps : List ℚ) (i : Nat) (s s' : BTState),
      backtestLoop cfg signal atr i ps s = .ok s' → LedgerInv i s →
      LedgerInv (i + ps.length) s' := by
  intro ps
  induction ps with
  | nil =>
    intro i s s' h hinv
    simp only [backtestLoop, Except.ok.injEq] at h
    subst h
    simpa using hinv
  | cons p ps ih =>
    intro i s s' h hinv
    simp only [backtestLoop] at h
    cases hb : barStep cfg signal atr i p s with
    | error e =>
      simp only [hb] at h
      exact Except.noConfusion h
    | ok s1 =>
      simp only [hb] at h
      have h2 := ih (i + 1) s1 s' h (barStep_ledgerInv cfg signal atr i p s s1 hb hinv)
      have : i + 1 + ps.length = i + (p :: ps).length := by simp; omega
      rwa [this] at h2

/-- C10: a successful run's trade ledger is chronologically well-ordered and
non-overlapping: every TradeResult exits strictly after it enters, and for
consecutive ledger entries the later trade's entry bar is no earlier than
the earlier trade's exit bar. -/
theorem C10_ledger_ordered (price : List ℚ) (signal : List Int) (atr : List (Option ℚ))
    (cfg : BTConfig) (eq : List ℚ) (tr : List TradeResult)
    (h : backtest price signal atr cfg = .ok (eq, tr)) :
    (∀ t ∈ tr, t.entry_idx < t.exit_idx) ∧
    List.Chain' (fun t u => t.exit_idx ≤ u.entry_idx) tr := by
  unfold backtest at h
  cases hl : backtestLoop cfg signal atr 0 price (initState cfg) with
  | error e =>
    rw [hl] at h
    exact Except.noConfusion h
  | ok sf =>
    rw [hl] at h
    simp only [Except.ok.injEq, Prod.mk.injEq] at h
    obtain ⟨-, htr⟩ := h
    have hinv := backtestLoop_ledgerInv cfg signal atr price 0 (initState cfg) sf hl
      (ledgerInv_init cfg)
    obtain ⟨h1, -, h3, -⟩ := hinv
    subst htr
    exact ⟨h1, h3⟩

theorem C10_ledger_ordered_witness :
    (∀ t ∈ [(⟨0, 1, 1, 100, 99, 50, -50, -1/2⟩ : TradeResult),
        ⟨2, 3, 1, 100, 1, 25, -2475, -99/4⟩], t.entry_idx < t.exit_idx) ∧
    List.Chain' (fun t u => t.exit_idx ≤ u.entry_idx)
      [(⟨0, 1, 1, 100, 99, 50, -50, -1/2⟩ : TradeResult),
        ⟨2, 3, 1, 100, 1, 25, -2475, -99/4⟩] :=
  C10_ledger_ordered [100, 99, 100, 1] [1, 0, 1, 0] [some 1, some 1, some 1, some 1]
    ⟨100, 1/2, 1, 1, 0, 0⟩ [100, 50, 50, -2425]
    [⟨0, 1, 1, 100, 99, 50, -50, -1/2⟩, ⟨2, 3, 1, 100, 1, 25, -2475, -99/4⟩]
    (by norm_num [backtest, backtestLoop, barStep, exitStep, entryStep, mtmStep,
      markEquity, atr_position_size, exitReason, entryFillPrice, exitFillPrice,
      initState, max_def, List.get?])

end TradingBot
